import Mathlib

/-!
Verification development for the variable-area resistor experiment
(src/utils.js and src/gpt-ver/main.js).

Shallow embedding over exact rationals: JS numbers are modelled as
rationals; Math.sin, Math.sqrt and Math.PI (implementation-defined float
approximations) are passed as explicit function/constant parameters so
that every definition stays executable.  The JS arrays of fixed length
are modelled as total functions on the index type; only the indices the
source actually touches are ever relevant.
-/

/-- 2^32, the modulus of all 32-bit operations in Mulberry32. -/
def m32 : ℕ := 4294967296

/-- One step of the Mulberry32 PRNG (Mulberry32.next in src/utils.js).
Returns (32-bit output word, new state).  The JS signed/unsigned 32-bit
operations are modelled on the underlying bit patterns mod 2^32; the JS
state grows without truncation but every use of it passes through a
32-bit operation, so tracking the state mod 2^32 is exact. -/
def mulberryStep (s : ℕ) : ℕ × ℕ :=
  let t0 := (s + 0x6D2B79F5) % m32
  let t1 := (Nat.xor t0 (t0 >>> 15) * (t0 ||| 1)) % m32
  let t2 := Nat.xor t1 ((t1 + (Nat.xor t1 (t1 >>> 7) * (t1 ||| 61)) % m32) % m32)
  (Nat.xor t2 (t2 >>> 14), t0)

/-- PRNG state after n draws, starting from a seed (seed >>> 0 in JS). -/
def rngState (seed : ℕ) : ℕ → ℕ
  | 0 => seed % m32
  | n + 1 => (mulberryStep (rngState seed n)).2

/-- The n-th float in [0,1) drawn from a Mulberry32 generator seeded with
seed; draws are numbered from 0.  The JS value (t ^ (t >>> 14)) >>> 0
divided by 4294967296 is an exact dyadic rational. -/
def rngVal (seed n : ℕ) : ℚ :=
  ((mulberryStep (rngState seed n)).1 : ℚ) / 4294967296

/-- Lobe count drawn by AreaProfile.generate: 2 + floor(next()*3). -/
def lobesOf (seed : ℕ) : ℕ := 2 + (⌊rngVal seed 0 * 3⌋).toNat

/-- Index of the first PRNG draw consumed for sample i by
AreaProfile.generate: draw 0 is the lobe count; each sample then consumes
two draws per lobe (phase, then frequency, redrawn inside the per-sample
loop) plus one jitter draw. -/
def sampleBase (seed i : ℕ) : ℕ := 1 + i * (2 * lobesOf seed + 1)

/-- The value stored in area[i] by AreaProfile.generate (src/utils.js),
with Math.sin and Math.PI passed explicitly as sinF and piA. -/
def genVal (sinF : ℚ → ℚ) (piA minArea maxArea : ℚ) (samples seed i : ℕ) : ℚ :=
  let lobes := lobesOf seed
  let base := sampleBase seed i
  let xNorm : ℚ := (i : ℚ) / ((samples : ℚ) - 1)
  let val := (List.range lobes).foldl
    (fun v k =>
      let phase := rngVal seed (base + 2 * k) * piA * 2
      let freq := 0.7 + rngVal seed (base + 2 * k + 1) * 1.3
      v + 0.6 * sinF (freq * piA * xNorm + phase)) 1.4
  let val2 := val + 0.3 * (rngVal seed (base + 2 * lobes) - 0.5)
  min maxArea (max minArea val2)

/-- The AreaProfile record (src/utils.js).  The JS arrays area and
cumulative (of length samples) are modelled as total functions on ℕ. -/
structure AreaProfile where
  length : ℚ
  samples : ℕ
  minArea : ℚ
  maxArea : ℚ
  area : ℕ → ℚ
  cumulative : ℕ → ℚ
  totalR : ℚ
  dx : ℚ

/-- p5.js constrain(n, lo, hi) = max(min(n, hi), lo). -/
def constrain (n lo hi : ℚ) : ℚ := max (min n hi) lo

/-- p5.js lerp(a, b, f) = f * (b - a) + a. -/
def lerp (a b f : ℚ) : ℚ := f * (b - a) + a

/-- Shared body of AreaProfile.areaAt and AreaProfile.resistanceUpTo
(src/utils.js): clamp x/length into [0,1], scale to the fractional index
idx = t*(samples-1), and linearly interpolate arr between floor(idx) and
min(samples-1, floor(idx)+1). -/
def interpQuery (arr : ℕ → ℚ) (samples : ℕ) (len x : ℚ) : ℚ :=
  let t := constrain (x / len) 0 1
  let idx := t * ((samples : ℚ) - 1)
  let i0 : ℤ := ⌊idx⌋
  let i1 : ℤ := min ((samples : ℤ) - 1) (i0 + 1)
  let f := idx - (i0 : ℚ)
  lerp (arr i0.toNat) (arr i1.toNat) f

def AreaProfile.areaAt (p : AreaProfile) (x : ℚ) : ℚ :=
  interpQuery p.area p.samples p.length x

def AreaProfile.resistanceUpTo (p : AreaProfile) (x : ℚ) : ℚ :=
  interpQuery p.cumulative p.samples p.length x

/-- The mm^2 -> m^2 conversion factor (scale = 1e-6 in precompute). -/
def qscale : ℚ := 1 / 1000000

/-- The cumulative resistance array built by AreaProfile.precompute:
cumulative[0] = 0 and, for the loop index i = 1 .. samples-1,
cumulative[i] = cumulative[i-1] + (rho / (area[i] * scale)) * dx. -/
def cumulFrom (rho dx : ℚ) (area : ℕ → ℚ) : ℕ → ℚ
  | 0 => 0
  | i + 1 => cumulFrom rho dx area i + rho / (area (i + 1) * qscale) * dx

/-- AreaProfile.precompute(rho) (src/utils.js): rebuilds cumulative from
the area array and sets totalR = cumulative[samples - 1]. -/
def AreaProfile.precompute (p : AreaProfile) (rho : ℚ) : AreaProfile :=
  { p with
    cumulative := cumulFrom rho p.dx p.area
    totalR := cumulFrom rho p.dx p.area (p.samples - 1) }

/-- The AreaProfile constructor (src/utils.js): stores the options, sets
dx = length/(samples-1), fills the area array via generate, and leaves
cumulative all zero and totalR = 1 (precompute is invoked separately). -/
def mkAreaProfile (sinF : ℚ → ℚ) (piA length' : ℚ) (samples : ℕ)
    (minArea maxArea : ℚ) (seed : ℕ) : AreaProfile :=
  { length := length'
    samples := samples
    minArea := minArea
    maxArea := maxArea
    area := fun i => genVal sinF piA minArea maxArea samples seed i
    cumulative := fun _ => 0
    totalR := 1
    dx := length' / ((samples : ℚ) - 1) }

/-- VarAreaExperiment.measureVoltage (src/gpt-ver/main.js), with the
standard-normal draw injected as g. -/
def measureVoltage (currentA noiseStd : ℚ) (p : AreaProfile) (x g : ℚ) : ℚ :=
  currentA * p.resistanceUpTo x + noiseStd * g

/-- The resistance sampled by the Add Reading handler of src/utils.js:
cumulative[constrain(floor(x/dx), 0, samples-1)] -- the cumulative value
at the nearest sample index at or below x, clamped into range. -/
def sampledRes (cumulative : ℕ → ℚ) (nSamples : ℕ) (dx x : ℚ) : ℚ :=
  cumulative (max (min ⌊x / dx⌋ ((nSamples : ℤ) - 1)) 0).toNat

/-- The Add Reading handler of the physical-noise variant (the
measureBtn.mousePressed closure in src/utils.js): reads res_curr from the
cumulative array at the clamped floor index, builds Johnson plus
instrument noise (the hard-coded 3 mV ampStd) and appends
(probeX, vMeas) to the readings list.  Math.sqrt is injected as sqrtF and
the randomGaussian() draw as g. -/
def addReadingPhysical (cumulative : ℕ → ℚ) (nSamples : ℕ)
    (dx currentA kb tempK noiseBW : ℚ) (sqrtF : ℚ → ℚ)
    (probeX g : ℚ) (readings : List (ℚ × ℚ)) : List (ℚ × ℚ) :=
  let res := sampledRes cumulative nSamples dx probeX
  let vIdeal := currentA * res
  let johnsonStd := sqrtF (4 * kb * tempK * res * noiseBW)
  let ampStd : ℚ := 3 / 1000
  let totalStd := sqrtF (johnsonStd * johnsonStd + ampStd * ampStd)
  readings ++ [(probeX, vIdeal + totalStd * g)]

/-- Modelled from the spec words of claim C4 (spec.md section 4.4): the
measured voltage computed from resistanceUpTo(x) -- the linearly
interpolated cumulative resistance -- entering both the ideal voltage and
the Johnson noise.  Used only to compare the spec formula against the
code. -/
def specPhysicalReading (p : AreaProfile)
    (currentA kb tempK noiseBW instrumentStd : ℚ)
    (sqrtF : ℚ → ℚ) (x g : ℚ) : ℚ :=
  let res := p.resistanceUpTo x
  let johnsonStd := sqrtF (4 * kb * tempK * res * noiseBW)
  let totalStd := sqrtF (johnsonStd * johnsonStd + instrumentStd * instrumentStd)
  currentA * res + totalStd * g

/-- MeasurementLog (src/utils.js); samples are (x, v) pairs kept in
insertion order. -/
structure MeasurementLog where
  data : List (ℚ × ℚ)

def MeasurementLog.clear (_log : MeasurementLog) : MeasurementLog := ⟨[]⟩

def MeasurementLog.add (log : MeasurementLog) (x v : ℚ) : MeasurementLog :=
  ⟨log.data ++ [(x, v)]⟩

/-- MeasurementLog.autoScan (src/utils.js): clear, then for i = 0 .. count-1
append (i*step, fn(i*step)) with step = length/(count-1). -/
def MeasurementLog.autoScan (log : MeasurementLog) (length' : ℚ)
    (fn : ℚ → ℚ) (count : ℕ) : MeasurementLog :=
  let step := length' / ((count : ℚ) - 1)
  (List.range count).foldl
    (fun l (i : ℕ) => l.add ((i : ℚ) * step) (fn ((i : ℚ) * step))) log.clear

/-- A small concrete profile used to instantiate the proved theorems:
length 1 m, 2 samples, constant unit area, dx = length/(samples-1) = 1. -/
def tp : AreaProfile :=
  { length := 1, samples := 2, minArea := 6 / 10, maxArea := 16 / 5,
    area := fun _ => 1, cumulative := fun _ => 0, totalR := 1, dx := 1 }

/-- A small concrete state for the physical-noise variant: 2 samples,
dx = 1, cumulative = [0, 1]. -/
def cp : AreaProfile :=
  { length := 1, samples := 2, minArea := 6 / 10, maxArea := 16 / 5,
    area := fun _ => 1, cumulative := fun i => if i = 0 then 0 else 1,
    totalR := 1, dx := 1 }

/-! ## Helper lemmas about the clamped interpolation query -/

theorem constrain01_nonneg (n : ℚ) : 0 ≤ constrain n 0 1 :=
  le_max_right _ 0

theorem constrain01_le_one (n : ℚ) : constrain n 0 1 ≤ 1 :=
  max_le (min_le_right n 1) zero_le_one

theorem constrain01_mono {a b : ℚ} (h : a ≤ b) :
    constrain a 0 1 ≤ constrain b 0 1 :=
  max_le_max (min_le_min h le_rfl) le_rfl

theorem constrain01_id {y : ℚ} (h0 : 0 ≤ y) (h1 : y ≤ 1) :
    constrain y 0 1 = y := by
  unfold constrain
  rw [min_eq_left h1, max_eq_left h0]

/-- Monotonicity of the raw interpolation segment lookup: if arr is
monotone and 0 ≤ q1 ≤ q2 ≤ M, the piecewise-linear interpolant built
from floor(q), min(M, floor(q)+1) and the fractional part is monotone. -/
theorem lerpSeg_mono (arr : ℕ → ℚ) (harr : Monotone arr) (M : ℤ)
    {q1 q2 : ℚ} (h0 : 0 ≤ q1) (h12 : q1 ≤ q2) (hub : q2 ≤ (M : ℚ)) :
    lerp (arr (⌊q1⌋).toNat) (arr (min M (⌊q1⌋ + 1)).toNat) (q1 - (⌊q1⌋ : ℚ)) ≤
      lerp (arr (⌊q2⌋).toNat) (arr (min M (⌊q2⌋ + 1)).toNat) (q2 - (⌊q2⌋ : ℚ)) := by
  have hacc : ∀ {a b : ℤ}, a ≤ b → arr a.toNat ≤ arr b.toNat :=
    fun hab => harr (Int.toNat_le_toNat hab)
  have hfM : ∀ {q : ℚ}, q ≤ (M : ℚ) → ⌊q⌋ ≤ M := by
    intro q hq
    have h := Int.floor_mono hq
    rwa [Int.floor_intCast] at h
  have hf1ub : ⌊q1⌋ ≤ M := hfM (h12.trans hub)
  have hf2ub : ⌊q2⌋ ≤ M := hfM hub
  have hf12 : ⌊q1⌋ ≤ ⌊q2⌋ := Int.floor_mono h12
  have hb1 : arr (⌊q1⌋).toNat ≤ arr (min M (⌊q1⌋ + 1)).toNat :=
    hacc (le_min hf1ub (by omega))
  have hb2 : arr (⌊q2⌋).toNat ≤ arr (min M (⌊q2⌋ + 1)).toNat :=
    hacc (le_min hf2ub (by omega))
  have hfr1nn : 0 ≤ q1 - (⌊q1⌋ : ℚ) := sub_nonneg.mpr (Int.floor_le q1)
  have hfr2nn : 0 ≤ q2 - (⌊q2⌋ : ℚ) := sub_nonneg.mpr (Int.floor_le q2)
  have hfr1ub : q1 - (⌊q1⌋ : ℚ) ≤ 1 := by
    have h := Int.lt_floor_add_one q1
    linarith
  rcases eq_or_lt_of_le hf12 with heq | hlt
  · rw [← heq]
    unfold lerp
    have hd : 0 ≤ arr (min M (⌊q1⌋ + 1)).toNat - arr (⌊q1⌋).toNat :=
      sub_nonneg.mpr hb1
    have hfr12 : q1 - (⌊q1⌋ : ℚ) ≤ q2 - (⌊q1⌋ : ℚ) := by linarith
    have h := mul_le_mul_of_nonneg_right hfr12 hd
    linarith
  · have h1 : lerp (arr (⌊q1⌋).toNat) (arr (min M (⌊q1⌋ + 1)).toNat)
        (q1 - (⌊q1⌋ : ℚ)) ≤ arr (min M (⌊q1⌋ + 1)).toNat := by
      unfold lerp
      have hd : 0 ≤ arr (min M (⌊q1⌋ + 1)).toNat - arr (⌊q1⌋).toNat :=
        sub_nonneg.mpr hb1
      have h := mul_le_of_le_one_left hd hfr1ub
      linarith
    have h2 : arr (⌊q2⌋).toNat ≤
        lerp (arr (⌊q2⌋).toNat) (arr (min M (⌊q2⌋ + 1)).toNat)
          (q2 - (⌊q2⌋ : ℚ)) := by
      unfold lerp
      have hd : 0 ≤ arr (min M (⌊q2⌋ + 1)).toNat - arr (⌊q2⌋).toNat :=
        sub_nonneg.mpr hb2
      have h := mul_nonneg hfr2nn hd
      linarith
    have hmid : arr (min M (⌊q1⌋ + 1)).toNat ≤ arr (⌊q2⌋).toNat := by
      apply hacc
      have h := min_le_right M (⌊q1⌋ + 1)
      omega
    linarith

/-- interpQuery is monotone in x whenever the array is monotone, the
length is positive and there is at least one sample. -/
theorem interpQuery_mono (arr : ℕ → ℚ) (samples : ℕ) (len : ℚ)
    (hL : 0 < len) (hN : 1 ≤ samples) (harr : Monotone arr)
    {x1 x2 : ℚ} (hx : x1 ≤ x2) :
    interpQuery arr samples len x1 ≤ interpQuery arr samples len x2 := by
  have hM : (0 : ℚ) ≤ (samples : ℚ) - 1 := by
    have h1 : (1 : ℚ) ≤ (samples : ℚ) := by exact_mod_cast hN
    linarith
  have hcast : ((samples : ℚ) - 1) = (((samples : ℤ) - 1 : ℤ) : ℚ) := by
    push_cast
    ring
  have h0 : 0 ≤ constrain (x1 / len) 0 1 * ((samples : ℚ) - 1) :=
    mul_nonneg (constrain01_nonneg _) hM
  have h12 : constrain (x1 / len) 0 1 * ((samples : ℚ) - 1) ≤
      constrain (x2 / len) 0 1 * ((samples : ℚ) - 1) :=
    mul_le_mul_of_nonneg_right (constrain01_mono (by gcongr)) hM
  have hub : constrain (x2 / len) 0 1 * ((samples : ℚ) - 1) ≤
      (((samples : ℤ) - 1 : ℤ) : ℚ) := by
    rw [← hcast]
    have h := mul_le_mul_of_nonneg_right (constrain01_le_one (x2 / len)) hM
    simpa using h
  exact lerpSeg_mono arr harr ((samples : ℤ) - 1) h0 h12 hub

/-- The cumulative array built by precompute is monotone whenever rho,
dx and all area samples are positive. -/
theorem cumulFrom_mono (rho dx : ℚ) (area : ℕ → ℚ)
    (hrho : 0 < rho) (hdx : 0 < dx) (harea : ∀ i, 0 < area i) :
    Monotone (cumulFrom rho dx area) := by
  apply monotone_nat_of_le_succ
  intro n
  have hpos : 0 < area (n + 1) * qscale := by
    have h := harea (n + 1)
    have hq : (0 : ℚ) < qscale := by norm_num [qscale]
    positivity
  have hstep : 0 ≤ rho / (area (n + 1) * qscale) * dx :=
    le_of_lt (mul_pos (div_pos hrho hpos) hdx)
  calc cumulFrom rho dx area n
      ≤ cumulFrom rho dx area n + rho / (area (n + 1) * qscale) * dx := by
        linarith
    _ = cumulFrom rho dx area (n + 1) := rfl

/-- When the clamped scaled index is exactly the integer k, interpQuery
returns arr k (the fractional part is 0, so the lerp degenerates). -/
theorem interpQuery_at_t (arr : ℕ → ℚ) (samples : ℕ) (len x : ℚ) (k : ℕ)
    (ht : constrain (x / len) 0 1 * ((samples : ℚ) - 1) = (k : ℚ)) :
    interpQuery arr samples len x = arr k := by
  simp only [interpQuery, lerp]
  rw [ht, Int.floor_natCast]
  have hz : (k : ℚ) - ((k : ℤ) : ℚ) = 0 := by push_cast; ring
  rw [hz, zero_mul, zero_add, Int.toNat_natCast]

/-- Dividing the clamped position by the length gives the clamped ratio:
constrain(x, 0, len) / len = constrain(x/len, 0, 1) for len > 0. -/
theorem constrain_div (len x : ℚ) (hL : 0 < len) :
    constrain x 0 len / len = constrain (x / len) 0 1 := by
  unfold constrain
  have h1 : min x len / len = min (x / len) 1 := by
    rcases le_total x len with h | h
    · rw [min_eq_left h, min_eq_left ((div_le_one hL).mpr h)]
    · rw [min_eq_right h, div_self hL.ne', min_eq_right ((one_le_div hL).mpr h)]
  have h2 : max (min x len) 0 / len = max (min x len / len) 0 := by
    rcases le_total (min x len) 0 with h | h
    · have hd : min x len / len ≤ 0 := by
        have hh : min x len / len ≤ 0 / len := by gcongr
        rwa [zero_div] at hh
      rw [max_eq_right h, zero_div, max_eq_right hd]
    · rw [max_eq_left h, max_eq_left (div_nonneg h hL.le)]
  rw [h2, h1]

/-- interpQuery is invariant under clamping of the query position. -/
theorem interpQuery_clamp (arr : ℕ → ℚ) (samples : ℕ) (len : ℚ)
    (hL : 0 < len) (x : ℚ) :
    interpQuery arr samples len (constrain x 0 len) =
      interpQuery arr samples len x := by
  have key : constrain (constrain x 0 len / len) 0 1 = constrain (x / len) 0 1 := by
    rw [constrain_div len x hL]
    exact constrain01_id (constrain01_nonneg _) (constrain01_le_one _)
  simp only [interpQuery]
  rw [key]

/-- Unrolling the autoScan fold: the resulting data is exactly the map of
the position/measurement pair over range count (the prior log content is
discarded by the initial clear). -/
theorem autoScan_data (log : MeasurementLog) (length' : ℚ) (fn : ℚ → ℚ)
    (count : ℕ) :
    (log.autoScan length' fn count).data =
      (List.range count).map fun i : ℕ =>
        ((i : ℚ) * (length' / ((count : ℚ) - 1)),
          fn ((i : ℚ) * (length' / ((count : ℚ) - 1)))) := by
  simp only [MeasurementLog.autoScan]
  generalize length' / ((count : ℚ) - 1) = step
  have H : ∀ (xs : List ℕ) (l : MeasurementLog),
      (xs.foldl (fun l i => l.add ((i : ℚ) * step) (fn ((i : ℚ) * step))) l).data =
        l.data ++ xs.map fun i : ℕ => ((i : ℚ) * step, fn ((i : ℚ) * step)) := by
    intro xs
    induction xs with
    | nil => intro l; simp
    | cons i xs ih =>
        intro l
        rw [List.foldl_cons, ih]
        simp [MeasurementLog.add]
  rw [H]
  simp [MeasurementLog.clear]

/-! ## Claim theorems -/

/-- C1: for a profile whose cumulative array has been filled by
precompute(rho) with rho > 0, all area samples positive, positive length,
at least two samples and the constructor relation dx = length/(samples-1),
the interpolated resistanceUpTo query never decreases: for x1 < x2 in
[0, length], resistanceUpTo(x1) ≤ resistanceUpTo(x2), because the
cumulative array is non-decreasing by construction. -/
theorem resistanceUpTo_monotone_after_precompute (p : AreaProfile) (rho : ℚ)
    (hL : 0 < p.length) (hN : 2 ≤ p.samples)
    (hdx : p.dx = p.length / ((p.samples : ℚ) - 1))
    (hrho : 0 < rho) (harea : ∀ i, 0 < p.area i)
    (x1 x2 : ℚ) (hx1 : 0 ≤ x1) (hx : x1 < x2) (hx2 : x2 ≤ p.length) :
    (p.precompute rho).resistanceUpTo x1 ≤ (p.precompute rho).resistanceUpTo x2 := by
  have hdxpos : 0 < p.dx := by
    rw [hdx]
    apply div_pos hL
    have h2 : (2 : ℚ) ≤ (p.samples : ℚ) := by exact_mod_cast hN
    linarith
  have hmono : Monotone (cumulFrom rho p.dx p.area) :=
    cumulFrom_mono rho p.dx p.area hrho hdxpos harea
  exact interpQuery_mono (cumulFrom rho p.dx p.area) p.samples p.length hL
    (by omega) hmono hx.le

/-- Witness for C1 at a concrete profile. -/
theorem resistanceUpTo_monotone_after_precompute_witness :
    (tp.precompute 1).resistanceUpTo 0 ≤ (tp.precompute 1).resistanceUpTo (1 / 2) :=
  resistanceUpTo_monotone_after_precompute tp 1 (by norm_num [tp])
    (by norm_num [tp]) (by norm_num [tp]) (by norm_num)
    (fun i => by norm_num [tp]) 0 (1 / 2) (by norm_num) (by norm_num)
    (by norm_num [tp])

/-- C2: after precompute(rho) on a profile with positive length and at
least two samples: cumulative[0] = 0; every later entry obeys
cumulative[i] = cumulative[i-1] + rho*dx/(area[i] converted to m^2);
totalR = cumulative[samples-1]; and the interpolated query satisfies
resistanceUpTo(0) = 0 and resistanceUpTo(length) = totalR (exactly, in
the rational model). -/
theorem precompute_cumulative_spec (p : AreaProfile) (rho : ℚ)
    (hL : 0 < p.length) (hN : 2 ≤ p.samples) :
    (p.precompute rho).cumulative 0 = 0 ∧
    (∀ i, (p.precompute rho).cumulative (i + 1) =
      (p.precompute rho).cumulative i + rho * p.dx / (p.area (i + 1) * qscale)) ∧
    (p.precompute rho).totalR = (p.precompute rho).cumulative (p.samples - 1) ∧
    (p.precompute rho).resistanceUpTo 0 = 0 ∧
    (p.precompute rho).resistanceUpTo p.length = (p.precompute rho).totalR := by
  refine ⟨rfl, ?_, rfl, ?_, ?_⟩
  · intro i
    have h : cumulFrom rho p.dx p.area (i + 1) =
        cumulFrom rho p.dx p.area i + rho / (p.area (i + 1) * qscale) * p.dx := rfl
    show cumulFrom rho p.dx p.area (i + 1) =
      cumulFrom rho p.dx p.area i + rho * p.dx / (p.area (i + 1) * qscale)
    rw [h, div_mul_eq_mul_div]
  · have ht : constrain (0 / p.length) 0 1 * ((p.samples : ℚ) - 1) = ((0 : ℕ) : ℚ) := by
      unfold constrain
      rw [zero_div, min_eq_left zero_le_one, max_self, zero_mul]
      norm_num
    exact interpQuery_at_t (cumulFrom rho p.dx p.area) p.samples p.length 0 0 ht
  · have hs1 : (1 : ℕ) ≤ p.samples := by omega
    have ht : constrain (p.length / p.length) 0 1 * ((p.samples : ℚ) - 1) =
        ((p.samples - 1 : ℕ) : ℚ) := by
      rw [div_self hL.ne']
      unfold constrain
      rw [min_self, max_eq_left zero_le_one, one_mul, Nat.cast_sub hs1]
      norm_num
    exact interpQuery_at_t (cumulFrom rho p.dx p.area) p.samples p.length
      p.length (p.samples - 1) ht

/-- Witness for C2 at a concrete profile. -/
theorem precompute_cumulative_spec_witness :
    0 < tp.length ∧ 2 ≤ tp.samples ∧
      (tp.precompute 1).resistanceUpTo tp.length = (tp.precompute 1).totalR :=
  ⟨by norm_num [tp], by norm_num [tp],
    (precompute_cumulative_spec tp 1 (by norm_num [tp]) (by norm_num [tp])).2.2.2.2⟩

/-- C3: the generator does NOT hold a lobe's phase fixed across samples.
generate consumes PRNG draws per sample: the phase of lobe 0 at sample i
is draw number sampleBase seed i, and at seed 42 the two distinct draw
indices for samples 0 and 1 yield two different phase values, so each
sinusoid's phase (and frequency) is redrawn for every sample instead of
being fixed across all N samples as the claim states. -/
theorem generate_redraws_phase_per_sample :
    sampleBase 42 0 ≠ sampleBase 42 1 ∧
      rngVal 42 (sampleBase 42 0) ≠ rngVal 42 (sampleBase 42 1) := by
  have h0 : (mulberryStep (rngState 42 0)).1 = 2581720956 := rfl
  have hlobes : lobesOf 42 = 3 := by
    unfold lobesOf rngVal
    rw [h0]
    norm_num
  have hb0 : sampleBase 42 0 = 1 := by simp [sampleBase]
  have hb1 : sampleBase 42 1 = 8 := by simp [sampleBase, hlobes]
  constructor
  · rw [hb0, hb1]
    omega
  · rw [hb0, hb1]
    have h1 : (mulberryStep (rngState 42 1)).1 = 1925393290 := rfl
    have h8 : (mulberryStep (rngState 42 8)).1 = 3717185310 := rfl
    unfold rngVal
    rw [h1, h8]
    norm_num

/-- C4 counterexample: at a two-sample state with cumulative = [0, 1],
dx = 1, probe x = 1/2, a zero noise draw and sqrt stubbed to 0, the Add
Reading handler records voltage 0 (it reads cumulative[floor(x/dx)] =
cumulative[0] = 0), while the claim's formula built on the interpolated
resistanceUpTo(1/2) = 1/2 gives voltage 1/2. -/
theorem addReading_interpolation_counterexample :
    addReadingPhysical cp.cumulative 2 1 1 1 1 1 (fun _ => 0) (1 / 2) 0 [] ≠
      [((1 : ℚ) / 2,
        specPhysicalReading cp 1 1 1 1 (3 / 1000) (fun _ => 0) (1 / 2) 0)] := by
  have hcode : addReadingPhysical cp.cumulative 2 1 1 1 1 1 (fun _ => 0)
      (1 / 2) 0 [] = [((1 : ℚ) / 2, 0)] := by
    have hfl : ⌊(1 : ℚ) / 2 / 1⌋ = 0 := by norm_num
    unfold addReadingPhysical sampledRes
    rw [hfl]
    have hidx : (max (min (0 : ℤ) (((2 : ℕ) : ℤ) - 1)) 0).toNat = 0 := by omega
    rw [hidx]
    norm_num [cp]
  have hres : cp.resistanceUpTo (1 / 2) = 1 / 2 := by
    show interpQuery cp.cumulative cp.samples cp.length (1 / 2) = 1 / 2
    simp only [interpQuery, lerp, constrain]
    norm_num [cp]
  have hspec : specPhysicalReading cp 1 1 1 1 (3 / 1000) (fun _ => 0)
      (1 / 2) 0 = 1 / 2 := by
    unfold specPhysicalReading
    rw [hres]
    norm_num
  rw [hcode, hspec]
  simp

/-- C4 amended: pressing Add Reading appends (x, I*R + totalStd*g) where
R = sampledRes, the cumulative value at index constrain(floor(x/dx), 0,
samples-1) -- the nearest sample at or below x -- rather than the
interpolated resistanceUpTo(x); johnsonStd and totalStd are built as the
claim says but from the same sampled R.  The sampled resistance agrees
with the interpolated resistanceUpTo whenever x is exactly a grid point
k*dx of the profile. -/
theorem addReading_sampled_spec :
    (∀ (cumulative : ℕ → ℚ) (nSamples : ℕ)
        (dx currentA kb tempK noiseBW : ℚ) (sqrtF : ℚ → ℚ) (x g : ℚ)
        (readings : List (ℚ × ℚ)),
      addReadingPhysical cumulative nSamples dx currentA kb tempK noiseBW
          sqrtF x g readings =
        readings ++ [(x, currentA * sampledRes cumulative nSamples dx x +
          sqrtF (sqrtF (4 * kb * tempK * sampledRes cumulative nSamples dx x * noiseBW) *
              sqrtF (4 * kb * tempK * sampledRes cumulative nSamples dx x * noiseBW) +
            (3 / 1000) * (3 / 1000)) * g)]) ∧
    (∀ (p : AreaProfile) (k : ℕ), 0 < p.length → 2 ≤ p.samples →
      p.dx = p.length / ((p.samples : ℚ) - 1) → k ≤ p.samples - 1 →
      sampledRes p.cumulative p.samples p.dx ((k : ℚ) * p.dx) =
        p.resistanceUpTo ((k : ℚ) * p.dx)) := by
  constructor
  · intro cumulative nSamples dx currentA kb tempK noiseBW sqrtF x g readings
    rfl
  · intro p k hL hN hdx hk
    have hc1 : (0 : ℚ) < (p.samples : ℚ) - 1 := by
      have h2 : (2 : ℚ) ≤ (p.samples : ℚ) := by exact_mod_cast hN
      linarith
    have hdxpos : 0 < p.dx := by
      rw [hdx]
      exact div_pos hL hc1
    have hkc : (k : ℚ) ≤ (p.samples : ℚ) - 1 := by
      have h1 : (k : ℚ) ≤ ((p.samples - 1 : ℕ) : ℚ) := by exact_mod_cast hk
      rwa [Nat.cast_sub (by omega), Nat.cast_one] at h1
    have hxdx : ((k : ℚ) * p.dx) / p.dx = (k : ℚ) := by
      rw [mul_div_assoc, div_self hdxpos.ne', mul_one]
    have hleft : sampledRes p.cumulative p.samples p.dx ((k : ℚ) * p.dx) =
        p.cumulative k := by
      unfold sampledRes
      rw [hxdx, Int.floor_natCast,
        min_eq_left (by omega : (k : ℤ) ≤ (p.samples : ℤ) - 1),
        max_eq_left (Int.natCast_nonneg k), Int.toNat_natCast]
    have hx : ((k : ℚ) * p.dx) / p.length = (k : ℚ) / ((p.samples : ℚ) - 1) := by
      rw [hdx]
      field_simp
      ring
    have ht : constrain (((k : ℚ) * p.dx) / p.length) 0 1 * ((p.samples : ℚ) - 1) =
        (k : ℚ) := by
      have h0 : 0 ≤ (k : ℚ) / ((p.samples : ℚ) - 1) :=
        div_nonneg (by positivity) hc1.le
      have h1 : (k : ℚ) / ((p.samples : ℚ) - 1) ≤ 1 := (div_le_one hc1).mpr hkc
      rw [hx, constrain01_id h0 h1, div_mul_cancel₀ _ hc1.ne']
    have hright := interpQuery_at_t p.cumulative p.samples p.length
      ((k : ℚ) * p.dx) k ht
    rw [hleft]
    exact hright.symm

/-- Witness for the amended C4 at a concrete state: at the grid point
x = 1*dx of cp, the sampled resistance equals the interpolated one. -/
theorem addReading_sampled_spec_witness :
    sampledRes cp.cumulative cp.samples cp.dx (((1 : ℕ) : ℚ) * cp.dx) =
      cp.resistanceUpTo (((1 : ℕ) : ℚ) * cp.dx) :=
  addReading_sampled_spec.2 cp 1 (by norm_num [cp]) (by norm_num [cp])
    (by norm_num [cp]) (by norm_num [cp])

/-- C5: two AreaProfiles constructed with identical parameters (length,
samples, minArea, maxArea) and the same seed have identical area arrays:
generation is a pure, deterministic function of the seed (and of the
injected sin and pi approximations), so the same Mulberry32 draw sequence
is reproduced. -/
theorem areaProfile_deterministic (sinF : ℚ → ℚ) (piA length' : ℚ)
    (samples : ℕ) (minA maxA : ℚ) (seed : ℕ) (p1 p2 : AreaProfile)
    (h1 : p1 = mkAreaProfile sinF piA length' samples minA maxA seed)
    (h2 : p2 = mkAreaProfile sinF piA length' samples minA maxA seed) :
    p1.area = p2.area := by
  rw [h1, h2]

/-- Witness for C5 at concrete parameters and seed 42. -/
theorem areaProfile_deterministic_witness :
    (mkAreaProfile (fun q => q) 3 1 4 (6 / 10) (16 / 5) 42).area =
      (mkAreaProfile (fun q => q) 3 1 4 (6 / 10) (16 / 5) 42).area :=
  areaProfile_deterministic (fun q => q) 3 1 4 (6 / 10) (16 / 5) 42 _ _ rfl rfl

/-- C6: for every query position x (in particular any x outside
[0, length]), areaAt and resistanceUpTo return exactly the value at the
clamped position constrain(x, 0, length); out-of-range positions are
silently clamped and never an error. -/
theorem query_clamps_out_of_range (p : AreaProfile) (hL : 0 < p.length)
    (x : ℚ) :
    p.areaAt x = p.areaAt (constrain x 0 p.length) ∧
      p.resistanceUpTo x = p.resistanceUpTo (constrain x 0 p.length) :=
  ⟨(interpQuery_clamp p.area p.samples p.length hL x).symm,
    (interpQuery_clamp p.cumulative p.samples p.length hL x).symm⟩

/-- Witness for C6 at a concrete out-of-range position. -/
theorem query_clamps_out_of_range_witness :
    tp.resistanceUpTo 5 = tp.resistanceUpTo (constrain 5 0 tp.length) :=
  (query_clamps_out_of_range tp (by norm_num [tp]) 5).2

/-- C7: measureVoltage returns I * resistanceUpTo(x) + sigma * g for the
injected standard-normal draw g and has no other effect; with sigma = 0
or a zero draw it returns exactly I * resistanceUpTo(x); and with the
same injected draw a repeated call returns the same value. -/
theorem measureVoltage_spec (currentA noiseStd : ℚ) (p : AreaProfile)
    (x g : ℚ) :
    measureVoltage currentA noiseStd p x g =
        currentA * p.resistanceUpTo x + noiseStd * g ∧
      (noiseStd = 0 →
        measureVoltage currentA noiseStd p x g = currentA * p.resistanceUpTo x) ∧
      (g = 0 →
        measureVoltage currentA noiseStd p x g = currentA * p.resistanceUpTo x) ∧
      measureVoltage currentA noiseStd p x g =
        measureVoltage currentA noiseStd p x g := by
  refine ⟨rfl, ?_, ?_, rfl⟩
  · intro h
    unfold measureVoltage
    rw [h]
    ring
  · intro h
    unfold measureVoltage
    rw [h]
    ring

/-- Witness for C7: with I = 1/4 and sigma = 0 the measurement at the
concrete profile is exactly I * resistanceUpTo(x). -/
theorem measureVoltage_spec_witness :
    measureVoltage (1 / 4) 0 (tp.precompute 1) (1 / 2) 7 =
      (1 / 4) * (tp.precompute 1).resistanceUpTo (1 / 2) :=
  (measureVoltage_spec (1 / 4) 0 (tp.precompute 1) (1 / 2) 7).2.1 rfl

/-- C8: autoScan(L, fn, count) discards the prior log content and appends
exactly count samples, the i-th at position i*L/(count-1) paired with one
fn evaluation there, so the positions run evenly from 0 to L inclusive
and are strictly increasing; the resulting log holds exactly count
samples. -/
theorem autoScan_spec (log : MeasurementLog) (L : ℚ) (fn : ℚ → ℚ)
    (count : ℕ) (hL : 0 < L) (hc : 2 ≤ count) :
    (log.autoScan L fn count).data =
        ((List.range count).map fun i : ℕ =>
          ((i : ℚ) * (L / ((count : ℚ) - 1)),
            fn ((i : ℚ) * (L / ((count : ℚ) - 1))))) ∧
      (log.autoScan L fn count).data.length = count ∧
      (∀ i j : ℕ, i < j → j < count →
        (i : ℚ) * (L / ((count : ℚ) - 1)) < (j : ℚ) * (L / ((count : ℚ) - 1))) ∧
      (0 : ℚ) * (L / ((count : ℚ) - 1)) = 0 ∧
      ((count - 1 : ℕ) : ℚ) * (L / ((count : ℚ) - 1)) = L := by
  have hc1 : (0 : ℚ) < (count : ℚ) - 1 := by
    have h2 : (2 : ℚ) ≤ (count : ℚ) := by exact_mod_cast hc
    linarith
  have hstep : 0 < L / ((count : ℚ) - 1) := div_pos hL hc1
  refine ⟨autoScan_data log L fn count, ?_, ?_, zero_mul _, ?_⟩
  · rw [autoScan_data]
    simp
  · intro i j hij hj
    exact mul_lt_mul_of_pos_right (by exact_mod_cast hij) hstep
  · rw [Nat.cast_sub (by omega : 1 ≤ count), Nat.cast_one, mul_comm,
      div_mul_cancel₀ _ hc1.ne']

/-- Witness for C8: an autoScan with count = 24 on the empty log yields
exactly 24 samples. -/
theorem autoScan_spec_witness :
    ((MeasurementLog.mk []).autoScan 1 (fun x => x) 24).data.length = 24 :=
  (autoScan_spec ⟨[]⟩ 1 (fun x => x) 24 (by norm_num) (by norm_num)).2.1

/-- C10: precompute is idempotent: a second precompute(rho) recomputes
cumulative and totalR from area, dx and rho, none of which the first call
modified, so the whole profile is unchanged. -/
theorem precompute_idempotent (p : AreaProfile) (rho : ℚ) :
    (p.precompute rho).precompute rho = p.precompute rho := rfl
